import Mathlib

/-!
Verification of `fix_html_entities.py` (tagtogorg/gists): a script repairing
annotation offsets corrupted by a double-escaping bug in HTML entities.
The Python function `fix_anndoc` is shallowly embedded below: segments
(`Part`), annotation records (`Entity`), the entity scanner
(`scanEntities`), the correction-record builder (`mkSubs`), the start-offset
cursor advance (`advanceStart`), the literal-text walk (`walkText`), and the
orchestrator (`fix_anndoc`). Machine integers are `Nat` (the script uses
Python ints that stay non-negative on the scanner-produced data).
File reads, JSON encoding and the HTML parser are external collaborators:
a `Part` carries both the serialized HTML (`html`, the value of
`str(part)`) and its once-decoded text content (`text`, the value of
`part.string`), exactly the two strings the script consumes.
-/

namespace FixHtmlEntities

/-- Offset span of an annotation: a start offset and the literal text,
mirroring one element of the `offsets` list of an annjson entity. -/
structure Span where
  start : Nat
  text : String
deriving DecidableEq, Repr

/-- Annotation record, mirroring one element of `annjson["entities"]`:
the segment identifier `part`, the `offsets` list, and `classId` standing
for the remaining fields that the script never touches. -/
structure Entity where
  part : String
  offsets : List Span
  classId : String
deriving DecidableEq, Repr

/-- One HTML segment as seen by the script: `id` is the element id,
`html` models `str(part)` (the serialized raw HTML of the element, where
a doubly-escaped entity still reads `&amp;amp;`), and `text` models
`part.string` (the text content after one round of entity decoding by the
HTML parser, where the same entity reads `&amp;`). -/
structure Part where
  id : String
  html : String
  text : String
deriving DecidableEq, Repr

/-- Annotation index, mirroring the annjson document: the entity list plus
`other` standing for all remaining JSON keys, which pass through. -/
structure AnnDoc where
  entities : List Entity
  other : String
deriving DecidableEq, Repr

/-- Character class `[#xa-zA-Z0-9]` of the script's regexes (the extra `x`
of the class is subsumed by `a-z`). -/
def isEntityChar (c : Char) : Bool :=
  c == '#' || c.isAlpha || c.isDigit

/-- Does `cs` start with `[#xa-zA-Z0-9]+;` (a non-empty run of entity-body
characters directly followed by a semicolon)? Since the class excludes the
semicolon, the regex's greedy match needs no backtracking. -/
def startsWithEntityBody (cs : List Char) : Bool :=
  let run := cs.takeWhile isEntityChar
  decide (0 < run.length) && ((cs.drop run.length).head? == some ';')

/-- Model of `re.search(r"&amp;[#xa-zA-Z0-9]+;", part_html_string)`:
the serialized segment HTML contains a doubly-escaped entity. -/
def hasDoublePattern : List Char → Bool
  | '&' :: 'a' :: 'm' :: 'p' :: ';' :: tail =>
    startsWithEntityBody tail || hasDoublePattern ('a' :: 'm' :: 'p' :: ';' :: tail)
  | _ :: rest => hasDoublePattern rest
  | [] => false

/-- Recursion core of the entity scanner. The `fuel` argument makes the
recursion structural (each step consumes at least one character, so a fuel
equal to the list length never runs out); it exists only so the function
reduces by kernel computation. -/
def scanEntitiesAux : Nat → List Char → Nat → List (Nat × List Char)
  | _, [], _ => []
  | 0, _ :: _, _ => []
  | fuel + 1, c :: rest, pos =>
    if c = '&' && startsWithEntityBody rest then
      let run := rest.takeWhile isEntityChar
      (pos, c :: (run ++ [';'])) ::
        scanEntitiesAux fuel (rest.drop (run.length + 1)) (pos + run.length + 2)
    else
      scanEntitiesAux fuel rest (pos + 1)

/-- Model of `re.finditer(r"&[#xa-zA-Z0-9]+;", part_string)`: the ordered,
non-overlapping list of entity matches in the decoded segment text, each as
(start position, matched characters). `pos` is the position of the head of
the list within the whole text. -/
def scanEntities (cs : List Char) (pos : Nat) : List (Nat × List Char) :=
  scanEntitiesAux cs.length cs pos

/-- Numeric value of a run of decimal digit characters. -/
def digitsVal (ds : List Char) : Nat :=
  ds.foldl (fun a c => a * 10 + (c.toNat - 48)) 0

/-- Numeric value of one hexadecimal digit character. -/
def hexDigitVal (c : Char) : Nat :=
  if c.isDigit then c.toNat - 48
  else if 'a' ≤ c && c ≤ 'f' then c.toNat - 87
  else if 'A' ≤ c && c ≤ 'F' then c.toNat - 55
  else 0

/-- Numeric value of a run of hexadecimal digit characters. -/
def hexVal (hs : List Char) : Nat :=
  hs.foldl (fun a c => a * 16 + hexDigitVal c) 0

/-- Model of `BeautifulSoup(match.group(0), "html.parser").string`, the
external HTML-entity decoding collaborator applied to one matched entity:
named references (the ones relevant to this bug class), decimal and
hexadecimal numeric references decode to their single character; an
unrecognized reference is left as is (as the lenient parser does). -/
def decodeEntity (s : String) : String :=
  match s.data with
  | '&' :: rest =>
    match rest.dropLast with
    | '#' :: 'x' :: hs => String.mk [Char.ofNat (hexVal hs)]
    | '#' :: ds =>
      if ds.all Char.isDigit && decide (0 < ds.length) then
        String.mk [Char.ofNat (digitsVal ds)]
      else s
    | body =>
      if body = ['a', 'm', 'p'] then "&"
      else if body = ['l', 't'] then "<"
      else if body = ['g', 't'] then ">"
      else if body = ['q', 'u', 'o', 't'] then "\""
      else s
  | _ => s

/-- Correction record, mirroring the `sub` dict built per entity match
(lines 79-89 of the script): offsets of the match in the corrected text,
its distortion `adjusted_offset = len - 1`, the running distortion sums,
the decoded single-character rendering `wrong_text`, and the position of
that single character in the corrupted offset space
(`wrong_start`/`wrong_end`). -/
structure Sub where
  actual_text : String
  actual_start : Nat
  actual_end : Nat
  adjusted_offset : Nat
  adjusted_offset_so_far : Nat
  adjusted_offset_next : Nat
  wrong_text : String
  wrong_start : Nat
  wrong_end : Nat
deriving DecidableEq, Repr

/-- Builder of the correction-record list from the scanner matches,
mirroring the `for match in html_entities` loop; `soFar` is the running
`adjusted_offset_so_far`. -/
def mkSubs : List (Nat × List Char) → Nat → List Sub
  | [], _ => []
  | (st, txt) :: ms, soFar =>
    let adj := txt.length - 1
    { actual_text := String.mk txt,
      actual_start := st,
      actual_end := st + txt.length,
      adjusted_offset := adj,
      adjusted_offset_so_far := soFar,
      adjusted_offset_next := soFar + adj,
      wrong_text := decodeEntity (String.mk txt),
      wrong_start := st - soFar,
      wrong_end := st - soFar + 1 } :: mkSubs ms (soFar + adj)

/-- Model of the `while subs_index < len(subs)` loop (lines 105-113):
consume the records whose `wrong_end` is ≤ the annotation's corrupted
start, accumulating their distortions into `acc`; on `break` (a pending
record remains) the start is incremented by the accumulated distortion.
Note the faithful quirk: when the loop exits because the records are
exhausted, the increment line is never reached and the start is returned
unchanged. Returns (remaining records, accumulated distortion, start). -/
def advanceStart : List Sub → Nat → Nat → List Sub × Nat × Nat
  | [], acc, wstart => ([], acc, wstart)
  | sub :: rest, acc, wstart =>
    if sub.wrong_end ≤ wstart then
      advanceStart rest (acc + sub.adjusted_offset) wstart
    else
      (sub :: rest, acc, wstart + acc)

/-- Model of the character-by-character rewrite of the annotation text
(lines 119-137): at each character the corrupted-space position advances by
one; when the next pending record's `wrong_end` equals that position, the
script asserts the character equals the record's decoded `wrong_text` (a
failed assertion is `none` here) and appends the record's full entity
literal, else it copies the character. Returns the rewritten characters
with the remaining records and updated accumulated distortion. -/
def walkText : List Char → List Sub → Nat → Nat → Option (List Char × List Sub × Nat)
  | [], subs, acc, _ => some ([], subs, acc)
  | c :: cs, subs, acc, pos =>
    match subs with
    | sub :: rest =>
      if sub.wrong_end = pos + 1 then
        if String.mk [c] = sub.wrong_text then
          match walkText cs rest (acc + sub.adjusted_offset) (pos + 1) with
          | none => none
          | some (t, s2, a2) => some (sub.actual_text.data ++ t, s2, a2)
        else none
      else
        match walkText cs (sub :: rest) acc (pos + 1) with
        | none => none
        | some (t, s2, a2) => some (c :: t, s2, a2)
    | [] =>
      match walkText cs [] acc (pos + 1) with
      | none => none
      | some (t, s2, a2) => some (c :: t, s2, a2)

/-- Realignment of one annotation (lines 100-143): rewrite the start offset
and text of the first offset span, threading the record cursor and the
accumulated distortion; `none` models a raised exception (an annotation
with an empty offsets list makes the script crash on `e["offsets"][0]`, a
mismatched decoded character fails the assertion in the walk). -/
def fixEntity (subs : List Sub) (acc : Nat) (e : Entity) :
    Option (Entity × List Sub × Nat) :=
  match e.offsets with
  | [] => none
  | sp :: rest =>
    let a := advanceStart subs acc sp.start
    match walkText sp.text.data a.1 a.2.1 sp.start with
    | none => none
    | some (t, subs2, acc2) =>
      some ({ e with offsets := ⟨a.2.2, String.mk t⟩ :: rest }, subs2, acc2)

/-- Realignment of the (sorted) annotations of one corrupted segment,
threading the record cursor and accumulated distortion left to right. -/
def fixEntities (subs : List Sub) (acc : Nat) :
    List Entity → Option (List Entity × List Sub × Nat)
  | [] => some ([], subs, acc)
  | e :: es =>
    match fixEntity subs acc e with
    | none => none
    | some (e2, subs2, acc2) =>
      match fixEntities subs2 acc2 es with
      | none => none
      | some (es2, subs3, acc3) => some (e2 :: es2, subs3, acc3)

/-- Sort key `e["offsets"][0]["start"]` used by the script when sorting a
corrupted segment's annotations. -/
def headStart (e : Entity) : Nat :=
  match e.offsets with
  | [] => 0
  | sp :: _ => sp.start

/-- Stable insertion of an entity into a list ascending by `headStart`: the
inserted element (which precedes the list elements in the input order) goes
after exactly the elements whose key is strictly smaller than its own. -/
def insertByStart (e : Entity) : List Entity → List Entity
  | [] => [e]
  | x :: xs =>
    if headStart x < headStart e then x :: insertByStart e xs
    else e :: x :: xs

/-- Model of `sorted(part_entities, key=lambda e: e["offsets"][0]["start"])`:
a stable ascending sort by the first span's start offset (Python's `sorted`
is stable; stable insertion sort computes the same list). -/
def sortByStart : List Entity → List Entity
  | [] => []
  | e :: es => insertByStart e (sortByStart es)

/-- Processing of one segment (the body of the `for part` loop): filter the
document's entities to this segment; if the double-escape pattern is absent
from the raw HTML, pass them through with no change flag; otherwise flag a
change and, when the segment has annotations, realign them in ascending
corrupted-start order against the records scanned from the segment text. -/
def processPart (ents : List Entity) (p : Part) : Option (List Entity × Bool) :=
  let pes := ents.filter (fun e => e.part == p.id)
  if hasDoublePattern p.html.data then
    if pes.isEmpty then some ([], true)
    else
      let sorted := sortByStart pes
      let subs := mkSubs (scanEntities p.text.data 0) 0
      match fixEntities subs 0 sorted with
      | none => none
      | some (es2, _, _) => some (es2, true)
  else some (pes, false)

/-- Processing of a list of segments, concatenating their contributions to
`fixed_entities` and OR-ing the per-segment change flags into
`were_changes_made`. -/
def processParts (ents : List Entity) : List Part → Option (List Entity × Bool)
  | [] => some ([], false)
  | p :: ps =>
    match processPart ents p with
    | none => none
    | some (es1, b1) =>
      match processParts ents ps with
      | none => none
      | some (es2, b2) => some (es1 ++ es2, b1 || b2)

/-- Model of the segment selector `re.compile('^s')` applied to an element
id: the id's first character is `s`. -/
def idIsSegment (s : String) : Bool :=
  match s.data with
  | c :: _ => c == 's'
  | [] => false

/-- Model of `fix_anndoc`: the segments are the elements of the parsed HTML
whose id starts with `s` (`find_all(id=re.compile('^s'))`); the outer
`Option` models a raised exception, the inner `Option` the script's return
value (`none` = the Python `None` no-change sentinel, `some` = the
corrected annotation index that the script serializes to JSON). -/
def fix_anndoc (allParts : List Part) (ann : AnnDoc) : Option (Option AnnDoc) :=
  match processParts ann.entities (allParts.filter (fun p => idIsSegment p.id)) with
  | none => none
  | some (fixed, changed) =>
    if changed then some (some { ann with entities := fixed }) else some none

/-- Modelled from the spec: the walk of section 4.3 phrased positionally.
Every character of the corrupted text is either substituted by the full
entity literal of the correction record whose boundary equals the
character's corrupted-space end position, or copied unchanged. -/
def specWalk (subs : List Sub) : Nat → List Char → List Char
  | _, [] => []
  | pos, c :: cs =>
    (match subs.find? (fun s => s.wrong_end == pos + 1) with
     | some s => s.actual_text.data
     | none => [c]) ++ specWalk subs (pos + 1) cs

/-! Concrete fixtures used to evaluate the embedded program on the
scenarios of the specification. `part1` is the spec's scenario segment:
its serialized HTML shows the doubly-escaped `&amp;amp;`, its once-decoded
text content shows `&amp;`, and the corrupted rendering (what the
annotation offsets were recorded against) was `Tom & Jerry`. -/

/-- Clean segment with no entity and no corruption pattern. -/
def part0 : Part := { id := "s0", html := "<p id=s0>Hello</p>", text := "Hello" }

/-- Corrupted segment of the spec scenario `Tom &amp;amp; Jerry`. -/
def part1 : Part :=
  { id := "s1", html := "<p id=s1>Tom &amp;amp; Jerry</p>", text := "Tom &amp; Jerry" }

/-- Corrupted segment with two entity occurrences; its corrupted rendering
was `& & XY`. -/
def part2 : Part :=
  { id := "s2", html := "<p id=s2>&amp;amp; &amp;amp; XY</p>", text := "&amp; &amp; XY" }

/-- Annotation on the ampersand of `part1`, as recorded against the
corrupted rendering `Tom & Jerry`: start 4, text the single character. -/
def entAmp : Entity := { part := "s1", offsets := [⟨4, "&"⟩], classId := "c1" }

/-- Annotation on `Jerry` in `part1`, recorded against the corrupted
rendering `Tom & Jerry` at start 6. -/
def entJerry : Entity := { part := "s1", offsets := [⟨6, "Jerry"⟩], classId := "c2" }

/-- Annotation with the literal corrupted text claimed by the spec
scenario (`&amp;amp;`, nine characters). -/
def entAmpLit : Entity := { part := "s1", offsets := [⟨4, "&amp;amp;"⟩], classId := "c1" }

/-- Annotation starting exactly at the second entity occurrence of
`part2` (corrupted position 2). -/
def entA : Entity := { part := "s2", offsets := [⟨2, "&"⟩], classId := "a" }

/-- Annotation on `XY` in `part2`, after both entity occurrences
(corrupted position 4). -/
def entB : Entity := { part := "s2", offsets := [⟨4, "XY"⟩], classId := "b" }

/-- Annotation in the clean segment `part0`. -/
def entHello : Entity := { part := "s0", offsets := [⟨1, "el"⟩], classId := "c0" }

/-- Annotation whose `part` field matches no segment id. -/
def entOrphan : Entity := { part := "zz", offsets := [⟨0, "H"⟩], classId := "c9" }

/-- Annotation with two offset spans in `part1`, to exercise the
first-span-only rewrite scope. -/
def entMulti : Entity :=
  { part := "s1", offsets := [⟨4, "&"⟩, ⟨12, "zz"⟩], classId := "cm" }

/-- Corrected form of `entAmp` produced by the program. -/
def entAmpFixed : Entity := { part := "s1", offsets := [⟨4, "&amp;"⟩], classId := "c1" }

/-- Corrected form of `entMulti` produced by the program. -/
def entMultiFixed : Entity :=
  { part := "s1", offsets := [⟨4, "&amp;"⟩, ⟨12, "zz"⟩], classId := "cm" }

/-- Input annotation index holding `entAmp` and `entJerry`. -/
def docAJ : AnnDoc := { entities := [entAmp, entJerry], other := "o" }

/-- Output annotation index the program produces from `docAJ` on
`part1`. -/
def outAJ : AnnDoc :=
  { entities := [entAmpFixed, entJerry], other := "o" }

/-- Input annotation index over a clean and a corrupted segment. -/
def docMix : AnnDoc := { entities := [entHello, entAmp], other := "o" }

/-- Output annotation index the program produces from `docMix` on
`[part0, part1]`. -/
def outMix : AnnDoc := { entities := [entHello, entAmpFixed], other := "o" }

/-- Input annotation index that also holds an annotation of an unknown
segment. -/
def docOrphan : AnnDoc :=
  { entities := [entHello, entAmp, entOrphan], other := "o" }

/-- Input annotation index holding only `entHello`. -/
def docHello : AnnDoc := { entities := [entHello], other := "o" }

/-- Correction record used to exercise the assertion failure: decoded
character `&` at corrupted position 4..5. -/
def subAmp : Sub :=
  { actual_text := "&amp;", actual_start := 4, actual_end := 9,
    adjusted_offset := 4, adjusted_offset_so_far := 0, adjusted_offset_next := 4,
    wrong_text := "&", wrong_start := 4, wrong_end := 5 }

/-- Relation between an input annotation and its realigned output: the
segment field and the untouched fields agree, the offset spans past the
first agree, and the first span's start offset did not decrease. -/
def realignRel (e e2 : Entity) : Prop :=
  e2.part = e.part ∧ e2.classId = e.classId ∧
  ∃ sp sp2 rest, e.offsets = sp :: rest ∧ e2.offsets = sp2 :: rest ∧ sp.start ≤ sp2.start

/-- Relation between an input annotation and its image in the output
annotation set: either passed through verbatim or realigned. -/
def passRel (e e2 : Entity) : Prop :=
  e2 = e ∨ realignRel e e2

/-- C1. The claim says a realigned annotation's corrected start equals its
corrupted start plus the sum of the distortions of the correction records
whose boundary is ≤ that start. The code falsifies this: in segment
`part1` the single record has boundary 5 ≤ 6 and distortion 4, so the
claim demands corrected start 6 + 4 = 10 for the annotation on `Jerry`,
but the program leaves the start at 6 (the loop that advances past the
records applies the accumulated distortion only when a further record
remains, so an annotation after the last entity occurrence is never
shifted). -/
theorem c1_trailing_annotation_not_shifted :
    fix_anndoc [part1] { entities := [entJerry], other := "o" } =
      some (some { entities := [{ part := "s1", offsets := [⟨6, "Jerry"⟩], classId := "c2" }],
                   other := "o" }) ∧
    (((mkSubs (scanEntities part1.text.data 0) 0).filter
        (fun s => s.wrong_end ≤ 6)).map (fun s => s.adjusted_offset)).sum = 4 ∧
    (6 : Nat) ≠ 6 + 4 := by
  refine ⟨by decide, by decide, by decide⟩

/-- C2 (counterexample). On the claim's literal input — raw segment HTML
`Tom &amp;amp; Jerry`, an annotation recorded as start 4 with the
nine-character text `&amp;amp;`, and a second annotation of the same
segment at start 6 after the entity — the program outputs the text
`&amp;amp;amp;` (not `&amp;` as claimed) and leaves the later annotation's
start at 6 (not shifted forward by 4 as claimed). -/
theorem c2_counterexample :
    fix_anndoc [part1] { entities := [entAmpLit, entJerry], other := "o" } =
      some (some
        { entities :=
            [{ part := "s1", offsets := [⟨4, "&amp;amp;amp;"⟩], classId := "c1" },
             { part := "s1", offsets := [⟨6, "Jerry"⟩], classId := "c2" }],
          other := "o" }) ∧
    ("&amp;amp;amp;" : String) ≠ "&amp;" ∧ (6 : Nat) ≠ 6 + 4 := by
  refine ⟨by decide, by decide, by decide⟩

/-- C2 (amended). For the segment with raw HTML `Tom &amp;amp; Jerry`, the
annotation on the entity as actually recorded against the corrupted
rendering `Tom & Jerry` — start 4, text the single character `&` — is
corrected to start 4, text `&amp;`; an annotation of the same segment
whose corrupted start lies after this entity keeps its start offset
unchanged (start 6 stays 6), because the realignment applies the
accumulated distortion only while an unconsumed correction record
remains. -/
theorem c2_amended :
    fix_anndoc [part1] { entities := [entAmp, entJerry], other := "o" } =
      some (some
        { entities :=
            [{ part := "s1", offsets := [⟨4, "&amp;"⟩], classId := "c1" },
             { part := "s1", offsets := [⟨6, "Jerry"⟩], classId := "c2" }],
          other := "o" }) := by
  decide

/-- C3. The claim says corrected start offsets are non-decreasing when the
annotations are processed in ascending corrupted-start order. The code
falsifies this: in segment `part2` (two entity occurrences, corrupted
rendering `& & XY`), the annotation at corrupted start 2 (on the second
entity) is corrected to start 6, while the following annotation at
corrupted start 4 (on `XY`, after the last entity occurrence) is left at
start 4, so the corrected starts 6, 4 are decreasing. -/
theorem c3_corrected_starts_not_monotone :
    fix_anndoc [part2] { entities := [entA, entB], other := "o" } =
      some (some
        { entities :=
            [{ part := "s2", offsets := [⟨6, "&amp;"⟩], classId := "a" },
             { part := "s2", offsets := [⟨4, "XY"⟩], classId := "b" }],
          other := "o" }) ∧
    (2 : Nat) ≤ 4 ∧ ¬ ((6 : Nat) ≤ 4) := by
  refine ⟨by decide, by decide, by decide⟩

/-- Helper: the cursor advance never moves a start offset backwards. -/
theorem advanceStart_le (subs : List Sub) (acc w : Nat) :
    w ≤ (advanceStart subs acc w).2.2 := by
  induction subs generalizing acc with
  | nil => simp [advanceStart]
  | cons s rest ih =>
    simp only [advanceStart]
    split
    · exact ih _
    · exact Nat.le_add_right w acc

/-- Helper: a successful realignment of one annotation relates input and
output by `realignRel`. -/
theorem fixEntity_rel {subs : List Sub} {acc : Nat} {e e2 : Entity}
    {s2 : List Sub} {a2 : Nat} (h : fixEntity subs acc e = some (e2, s2, a2)) :
    realignRel e e2 := by
  unfold fixEntity at h
  split at h
  · exact absurd h (by simp)
  · rename_i sp rest hoff
    simp only [] at h
    split at h
    · exact absurd h (by simp)
    · rename_i t subs2 acc2 hw
      simp only [Option.some.injEq, Prod.mk.injEq] at h
      obtain ⟨he, -, -⟩ := h
      refine ⟨by rw [← he], by rw [← he], sp,
        ⟨(advanceStart subs acc sp.start).2.2, String.mk t⟩, rest, hoff, by rw [← he],
        advanceStart_le subs acc sp.start⟩

/-- Helper: a successful realignment of a list of annotations relates
inputs and outputs pointwise by `realignRel`. -/
theorem fixEntities_rel {subs : List Sub} {acc : Nat} {es es2 : List Entity}
    {s3 : List Sub} {a3 : Nat} (h : fixEntities subs acc es = some (es2, s3, a3)) :
    List.Forall₂ realignRel es es2 := by
  induction es generalizing subs acc es2 s3 a3 with
  | nil =>
    simp only [fixEntities, Option.some.injEq, Prod.mk.injEq] at h
    rw [← h.1]
    exact List.Forall₂.nil
  | cons e es ih =>
    simp only [fixEntities] at h
    split at h
    · exact absurd h (by simp)
    · rename_i e2 subs2 acc2 h1
      split at h
      · exact absurd h (by simp)
      · rename_i es3 s4 a4 h2
        simp only [Option.some.injEq, Prod.mk.injEq] at h
        rw [← h.1]
        exact List.Forall₂.cons (fixEntity_rel h1) (ih h2)

/-- Helper: membership in a stable insertion. -/
theorem mem_insertByStart {a e : Entity} {l : List Entity} :
    a ∈ insertByStart e l ↔ a = e ∨ a ∈ l := by
  induction l with
  | nil => simp [insertByStart]
  | cons x xs ih =>
    simp only [insertByStart]
    split
    · simp only [List.mem_cons, ih]
      tauto
    · simp [List.mem_cons]

/-- Helper: sorting does not change membership. -/
theorem mem_sortByStart {a : Entity} {l : List Entity} :
    a ∈ sortByStart l ↔ a ∈ l := by
  induction l with
  | nil => simp [sortByStart]
  | cons x xs ih => simp [sortByStart, mem_insertByStart, ih]

/-- Helper: insertion grows the length by one. -/
theorem length_insertByStart (e : Entity) (l : List Entity) :
    (insertByStart e l).length = l.length + 1 := by
  induction l with
  | nil => simp [insertByStart]
  | cons x xs ih =>
    simp only [insertByStart]
    split
    · simp [ih]
    · simp

/-- Helper: sorting preserves the length. -/
theorem length_sortByStart (l : List Entity) :
    (sortByStart l).length = l.length := by
  induction l with
  | nil => simp [sortByStart]
  | cons x xs ih => simp [sortByStart, length_insertByStart, ih]

/-- Helper: a right element of a pointwise relation has a related left
element. -/
theorem forall₂_exists_left {α β : Type} {R : α → β → Prop} {l : List α}
    {l2 : List β} (h : List.Forall₂ R l l2) {b : β} (hb : b ∈ l2) :
    ∃ a ∈ l, R a b := by
  induction h with
  | nil => cases hb
  | cons hR hF ih =>
    rcases List.mem_cons.mp hb with hb1 | hb2
    · exact ⟨_, List.mem_cons_self _ _, hb1 ▸ hR⟩
    · obtain ⟨a, ha, hr⟩ := ih hb2
      exact ⟨a, List.mem_cons_of_mem _ ha, hr⟩

/-- Helper: a pass-through or realignment never changes the segment
field. -/
theorem passRel_part {e e2 : Entity} (h : passRel e e2) : e2.part = e.part := by
  rcases h with rfl | h
  · rfl
  · exact h.1

/-- Helper: a pass-through or realignment never decreases the first span's
start offset. -/
theorem passRel_headStart {e e2 : Entity} (h : passRel e e2) :
    headStart e ≤ headStart e2 := by
  rcases h with rfl | ⟨-, -, sp, sp2, rest, h1, h2, h3⟩
  · exact Nat.le_refl _
  · simp only [headStart, h1, h2]
    exact h3

/-- Helper: a segment without the corruption pattern contributes exactly
its own annotations, unchanged, with no change flag. -/
theorem processPart_clean {ents : List Entity} {p : Part}
    (h : hasDoublePattern p.html.data = false) :
    processPart ents p = some (ents.filter (fun e => e.part == p.id), false) := by
  simp [processPart, h]

/-- Helper: the change flag contributed by one segment equals its
corruption test. -/
theorem processPart_flag {ents : List Entity} {p : Part} {es1 : List Entity}
    {b : Bool} (h : processPart ents p = some (es1, b)) :
    b = hasDoublePattern p.html.data := by
  simp only [processPart] at h
  split at h
  · rename_i hpat
    split at h
    · simp only [Option.some.injEq, Prod.mk.injEq] at h
      rw [← h.2, hpat]
    · split at h
      · exact absurd h (by simp)
      · simp only [Option.some.injEq, Prod.mk.injEq] at h
        rw [← h.2, hpat]
  · rename_i hpat
    simp only [Option.some.injEq, Prod.mk.injEq] at h
    rw [← h.2]
    simp only [Bool.not_eq_true] at hpat
    rw [hpat]

/-- Helper: every annotation contributed by one segment is the
pass-through or realignment of an input annotation of that segment. -/
theorem processPart_sound {ents : List Entity} {p : Part} {es1 : List Entity}
    {b : Bool} (h : processPart ents p = some (es1, b)) :
    ∀ e2 ∈ es1, ∃ e ∈ ents, e.part = p.id ∧ passRel e e2 := by
  simp only [processPart] at h
  split at h
  · split at h
    · simp only [Option.some.injEq, Prod.mk.injEq] at h
      rw [← h.1]
      intro e2 he2
      cases he2
    · split at h
      · exact absurd h (by simp)
      · rename_i es2 s3 a3 hfix
        simp only [Option.some.injEq, Prod.mk.injEq] at h
        rw [← h.1]
        intro e2 he2
        obtain ⟨e, he, hr⟩ := forall₂_exists_left (fixEntities_rel hfix) he2
        rw [mem_sortByStart] at he
        have hm := List.mem_filter.mp he
        exact ⟨e, hm.1, by simpa using hm.2, Or.inr hr⟩
  · simp only [Option.some.injEq, Prod.mk.injEq] at h
    rw [← h.1]
    intro e2 he2
    have hm := List.mem_filter.mp he2
    exact ⟨e2, hm.1, by simpa using hm.2, Or.inl rfl⟩

/-- Helper: every annotation contributed by one segment carries that
segment's id. -/
theorem processPart_part {ents : List Entity} {p : Part} {es1 : List Entity}
    {b : Bool} (h : processPart ents p = some (es1, b)) :
    ∀ e2 ∈ es1, e2.part = p.id := by
  intro e2 he2
  obtain ⟨e, -, hp, hr⟩ := processPart_sound h e2 he2
  rw [passRel_part hr, hp]

/-- Helper: one segment contributes as many annotations as the input
document has for it. -/
theorem processPart_length {ents : List Entity} {p : Part} {es1 : List Entity}
    {b : Bool} (h : processPart ents p = some (es1, b)) :
    es1.length = (ents.filter (fun e => e.part == p.id)).length := by
  simp only [processPart] at h
  split at h
  · split at h
    · rename_i hemp
      simp only [Option.some.injEq, Prod.mk.injEq] at h
      rw [← h.1, List.isEmpty_iff.mp hemp]
    · split at h
      · exact absurd h (by simp)
      · rename_i es2 s3 a3 hfix
        simp only [Option.some.injEq, Prod.mk.injEq] at h
        rw [← h.1, ← (fixEntities_rel hfix).length_eq, length_sortByStart]
  · simp only [Option.some.injEq, Prod.mk.injEq] at h
    rw [← h.1]

/-- Helper: every annotation of the reassembled output set is the
pass-through or realignment of an input annotation of one of the
segments. -/
theorem processParts_sound {ents : List Entity} {ps : List Part}
    {es : List Entity} {b : Bool} (h : processParts ents ps = some (es, b)) :
    ∀ e2 ∈ es, ∃ p ∈ ps, ∃ e ∈ ents, e.part = p.id ∧ passRel e e2 := by
  induction ps generalizing es b with
  | nil =>
    simp only [processParts, Option.some.injEq, Prod.mk.injEq] at h
    rw [← h.1]
    intro e2 he2
    cases he2
  | cons p ps ih =>
    simp only [processParts] at h
    split at h
    · exact absurd h (by simp)
    · rename_i es1 b1 h1
      split at h
      · exact absurd h (by simp)
      · rename_i es2 b2 h2
        simp only [Option.some.injEq, Prod.mk.injEq] at h
        rw [← h.1]
        intro e2 he2
        rcases List.mem_append.mp he2 with h3 | h3
        · obtain ⟨e, he, hp, hr⟩ := processPart_sound h1 e2 h3
          exact ⟨p, List.mem_cons_self _ _, e, he, hp, hr⟩
        · obtain ⟨p2, hp2, e, he, hp, hr⟩ := ih h2 e2 h3
          exact ⟨p2, List.mem_cons_of_mem _ hp2, e, he, hp, hr⟩

/-- Helper: the overall change flag is true iff some processed segment
contains the corruption pattern. -/
theorem processParts_flag {ents : List Entity} {ps : List Part}
    {es : List Entity} {b : Bool} (h : processParts ents ps = some (es, b)) :
    b = ps.any (fun p => hasDoublePattern p.html.data) := by
  induction ps generalizing es b with
  | nil =>
    simp only [processParts, Option.some.injEq, Prod.mk.injEq] at h
    rw [← h.2]
    rfl
  | cons p ps ih =>
    simp only [processParts] at h
    split at h
    · exact absurd h (by simp)
    · rename_i es1 b1 h1
      split at h
      · exact absurd h (by simp)
      · rename_i es2 b2 h2
        simp only [Option.some.injEq, Prod.mk.injEq] at h
        rw [← h.2, List.any_cons, processPart_flag h1, ih h2]

/-- Helper: an annotation of a clean processed segment is a member of the
output set unchanged. -/
theorem processParts_pass {ents : List Entity} {ps : List Part}
    {es : List Entity} {b : Bool} (h : processParts ents ps = some (es, b))
    {p : Part} (hp : p ∈ ps) (hclean : hasDoublePattern p.html.data = false)
    {e : Entity} (he : e ∈ ents) (hpart : e.part = p.id) : e ∈ es := by
  induction ps generalizing es b with
  | nil => cases hp
  | cons p0 ps ih =>
    simp only [processParts] at h
    split at h
    · exact absurd h (by simp)
    · rename_i es1 b1 h1
      split at h
      · exact absurd h (by simp)
      · rename_i es2 b2 h2
        simp only [Option.some.injEq, Prod.mk.injEq] at h
        rw [← h.1]
        rcases List.mem_cons.mp hp with rfl | hp2
        · rw [processPart_clean hclean] at h1
          simp only [Option.some.injEq, Prod.mk.injEq] at h1
          refine List.mem_append.mpr (Or.inl ?_)
          rw [← h1.1]
          exact List.mem_filter.mpr ⟨he, by simp [hpart]⟩
        · exact List.mem_append.mpr (Or.inr (ih h2 hp2))

/-- Helper: per segment id, the output set carries exactly the input
annotations of a processed segment with that id, and none otherwise
(counted; segment ids assumed distinct as element ids are in HTML). -/
theorem processParts_count {ents : List Entity} {ps : List Part}
    {es : List Entity} {b : Bool} (hnd : (ps.map Part.id).Nodup)
    (h : processParts ents ps = some (es, b)) (q : String) :
    (es.filter (fun e => e.part == q)).length =
      if ps.any (fun p => p.id == q) then
        (ents.filter (fun e => e.part == q)).length
      else 0 := by
  induction ps generalizing es b with
  | nil =>
    simp only [processParts, Option.some.injEq, Prod.mk.injEq] at h
    rw [← h.1]
    simp
  | cons p ps ih =>
    rw [List.map_cons, List.nodup_cons] at hnd
    simp only [processParts] at h
    split at h
    · exact absurd h (by simp)
    · rename_i es1 b1 h1
      split at h
      · exact absurd h (by simp)
      · rename_i es2 b2 h2
        simp only [Option.some.injEq, Prod.mk.injEq] at h
        rw [← h.1, List.filter_append, List.length_append]
        by_cases hq : p.id = q
        · have hself : es1.filter (fun e => e.part == q) = es1 :=
            List.filter_eq_self.mpr (fun e2 he2 => by
              simp [processPart_part h1 e2 he2, hq])
          have hany : ps.any (fun p2 => p2.id == q) = false := by
            rw [List.any_eq_false]
            intro p2 hp2
            simp only [beq_iff_eq]
            intro hcontra
            exact hnd.1 (hq ▸ hcontra ▸ List.mem_map_of_mem Part.id hp2)
          rw [hself, processPart_length h1, ih hnd.2 h2, hany]
          simp [List.any_cons, hq]
        · have hnil : es1.filter (fun e => e.part == q) = [] :=
            List.filter_eq_nil_iff.mpr (fun e2 he2 => by
              simp [processPart_part h1 e2 he2, hq])
          rw [hnil, ih hnd.2 h2]
          simp [List.any_cons, hq]

/-- Helper: a successful changed run of `fix_anndoc` comes from a
successful `processParts` run with the change flag set, and returns the
input document with its entity list replaced. -/
theorem fix_anndoc_some_inv {parts : List Part} {ann : AnnDoc} {out : AnnDoc}
    (h : fix_anndoc parts ann = some (some out)) :
    ∃ fixed, processParts ann.entities (parts.filter (fun p => idIsSegment p.id)) =
        some (fixed, true) ∧ out.entities = fixed ∧ out.other = ann.other := by
  unfold fix_anndoc at h
  split at h
  · exact absurd h (by simp)
  · rename_i fixed changed hp
    cases changed with
    | false => simp at h
    | true =>
      simp only [if_true, Option.some.injEq] at h
      exact ⟨fixed, hp, by rw [← h], by rw [← h]⟩

/-- C5. Every annotation of the output annotation set (pass-through or
realigned) corresponds to an input annotation of the same segment whose
first-span start offset is ≤ the output one: the correction only ever
shifts start offsets forward or leaves them unchanged, never backward. -/
theorem c5_start_offsets_never_decrease {parts : List Part} {ann out : AnnDoc}
    (h : fix_anndoc parts ann = some (some out)) :
    ∀ e2 ∈ out.entities, ∃ e ∈ ann.entities,
      e.part = e2.part ∧ headStart e ≤ headStart e2 := by
  obtain ⟨fixed, hp, hent, -⟩ := fix_anndoc_some_inv h
  intro e2 he2
  rw [hent] at he2
  obtain ⟨p, -, e, he, -, hr⟩ := processParts_sound hp e2 he2
  exact ⟨e, he, (passRel_part hr).symm, passRel_headStart hr⟩

/-- C5 witness: concrete corrupted run where one annotation keeps its
start and the realigned one does not move backward. -/
theorem c5_witness :
    fix_anndoc [part1] docAJ = some (some outAJ) ∧
    ∀ e2 ∈ outAJ.entities, ∃ e ∈ docAJ.entities,
      e.part = e2.part ∧ headStart e ≤ headStart e2 :=
  ⟨by decide, @c5_start_offsets_never_decrease [part1] docAJ outAJ (by decide)⟩

/-- C6. Given that the run terminates normally, the no-change sentinel is
returned iff no segment's raw HTML contains the double-escaping pattern;
otherwise the corrected annotation index is returned (even when the
matching segment had no annotations, since the flag is set before the
annotation check). -/
theorem c6_no_change_iff_no_pattern {parts : List Part} {ann : AnnDoc}
    {r : Option AnnDoc} (h : fix_anndoc parts ann = some r) :
    r = none ↔
      ∀ p ∈ parts, idIsSegment p.id = true →
        hasDoublePattern p.html.data = false := by
  unfold fix_anndoc at h
  split at h
  · exact absurd h (by simp)
  · rename_i fixed changed hp
    have hflag := processParts_flag hp
    constructor
    · intro hr
      subst hr
      cases changed with
      | true => simp at h
      | false =>
        intro p hmem hseg
        have hany : (parts.filter (fun p => idIsSegment p.id)).any
            (fun p => hasDoublePattern p.html.data) = false := hflag.symm
        rw [List.any_eq_false] at hany
        have := hany p (List.mem_filter.mpr ⟨hmem, hseg⟩)
        simpa using this
    · intro hall
      have hany : (parts.filter (fun p => idIsSegment p.id)).any
          (fun p => hasDoublePattern p.html.data) = false := by
        rw [List.any_eq_false]
        intro p hmem
        have hm := List.mem_filter.mp hmem
        simp [hall p hm.1 hm.2]
      rw [hany] at hflag
      subst hflag
      simp only [if_neg Bool.false_ne_true, Option.some.injEq] at h
      exact h.symm

/-- C6 witness: a clean document yields the no-change sentinel, matching
the right-hand side of the equivalence at this input. -/
theorem c6_witness :
    fix_anndoc [part0] docHello = some none ∧
    (((none : Option AnnDoc) = none) ↔
      ∀ p ∈ [part0], idIsSegment p.id = true →
        hasDoublePattern p.html.data = false) :=
  ⟨by decide, @c6_no_change_iff_no_pattern [part0] docHello none (by decide)⟩

/-- C7. An annotation of a segment whose raw HTML lacks the corruption
pattern passes through to the output annotation set unchanged (the very
same record is a member of the output). -/
theorem c7_clean_segment_passthrough {parts : List Part} {ann out : AnnDoc}
    {p : Part} (h : fix_anndoc parts ann = some (some out)) (hp : p ∈ parts)
    (hseg : idIsSegment p.id = true)
    (hclean : hasDoublePattern p.html.data = false)
    {e : Entity} (he : e ∈ ann.entities) (hpart : e.part = p.id) :
    e ∈ out.entities := by
  obtain ⟨fixed, hpp, hent, -⟩ := fix_anndoc_some_inv h
  rw [hent]
  exact processParts_pass hpp (List.mem_filter.mpr ⟨hp, hseg⟩) hclean he hpart

/-- C7 witness: with a clean and a corrupted segment in one document, the
clean segment's annotation appears verbatim in the output. -/
theorem c7_witness :
    fix_anndoc [part0, part1] docMix = some (some outMix) ∧
    entHello ∈ outMix.entities :=
  ⟨by decide, @c7_clean_segment_passthrough [part0, part1] docMix outMix part0
    (by decide) (by decide) (by decide) (by decide) entHello (by decide) (by decide)⟩

/-- C8. A successful realignment of one annotation modifies at most the
start and text of the first offset span: the segment field, the remaining
fields, the offset spans past the first and the number of spans are
unchanged. -/
theorem c8_only_first_span_rewritten {subs : List Sub} {acc : Nat}
    {e e2 : Entity} {s2 : List Sub} {a2 : Nat}
    (h : fixEntity subs acc e = some (e2, s2, a2)) :
    e2.part = e.part ∧ e2.classId = e.classId ∧
    e2.offsets.tail = e.offsets.tail ∧ e2.offsets.length = e.offsets.length := by
  obtain ⟨hp, hc, sp, sp2, rest, h1, h2, -⟩ := fixEntity_rel h
  refine ⟨hp, hc, ?_, ?_⟩ <;> rw [h1, h2] <;> rfl

/-- C8 witness: realigning a two-span annotation rewrites the first span
only and keeps the second span and the other fields. -/
theorem c8_witness :
    fixEntity (mkSubs (scanEntities part1.text.data 0) 0) 0 entMulti =
      some (entMultiFixed, [], 4) ∧
    (entMultiFixed.part = entMulti.part ∧
     entMultiFixed.classId = entMulti.classId ∧
     entMultiFixed.offsets.tail = entMulti.offsets.tail ∧
     entMultiFixed.offsets.length = entMulti.offsets.length) :=
  ⟨by decide, @c8_only_first_span_rewritten (mkSubs (scanEntities part1.text.data 0) 0)
    0 entMulti entMultiFixed [] 4 (by decide)⟩

/-- C10. When a corrected index is produced and the processed segment ids
are distinct, the output entity list contains, per segment identifier,
exactly the input annotations whose `part` equals the id of some HTML
element whose id starts with `s` (counted), and no annotation whose
`part` matches no such element survives. -/
theorem c10_output_keeps_only_matched_segments {parts : List Part}
    {ann out : AnnDoc}
    (hnd : ((parts.filter (fun p => idIsSegment p.id)).map Part.id).Nodup)
    (h : fix_anndoc parts ann = some (some out)) (q : String) :
    (out.entities.filter (fun e => e.part == q)).length =
      if (parts.filter (fun p => idIsSegment p.id)).any (fun p => p.id == q) then
        (ann.entities.filter (fun e => e.part == q)).length
      else 0 := by
  obtain ⟨fixed, hp, hent, -⟩ := fix_anndoc_some_inv h
  rw [hent]
  exact processParts_count hnd hp q

/-- C10 witness: an annotation referencing the unknown segment id `zz` is
silently dropped from the corrected output. -/
theorem c10_witness :
    fix_anndoc [part0, part1] docOrphan = some (some outMix) ∧
    (outMix.entities.filter (fun e => e.part == "zz")).length =
      if ([part0, part1].filter (fun p => idIsSegment p.id)).any
          (fun p => p.id == "zz") then
        (docOrphan.entities.filter (fun e => e.part == "zz")).length
      else 0 :=
  ⟨by decide, @c10_output_keeps_only_matched_segments [part0, part1] docOrphan outMix
    (by decide) (by decide) "zz"⟩

/-- Helper: with no pending correction record the walk copies the text
verbatim and cannot fail. -/
theorem walkText_nil_subs (cs : List Char) (acc pos : Nat) :
    walkText cs [] acc pos = some (cs, [], acc) := by
  induction cs generalizing pos with
  | nil => rfl
  | cons c cs ih => simp [walkText, ih]

/-- Helper: with no correction record the positional rewrite copies the
text verbatim. -/
theorem specWalk_nil_subs (pos : Nat) (cs : List Char) :
    specWalk [] pos cs = cs := by
  induction cs generalizing pos with
  | nil => rfl
  | cons c cs ih => simp [specWalk, ih]

/-- Helper: a record whose boundary is already past the position never
matches again in the positional walk. -/
theorem specWalk_skip {s : Sub} {rest : List Sub} {pos : Nat} {cs : List Char}
    (h : s.wrong_end ≤ pos) :
    specWalk (s :: rest) pos cs = specWalk rest pos cs := by
  induction cs generalizing pos with
  | nil => rfl
  | cons c cs ih =>
    simp only [specWalk]
    rw [List.find?_cons_of_neg _ (by simp; omega), ih (Nat.le_succ_of_le h)]

/-- C4. Under the invariants the program maintains (records sorted by
strictly increasing corrupted-space boundary, all boundaries pending,
i.e. beyond the current position), a successful literal-text walk produces
exactly the spec's positional rewrite: each character whose corrupted-space
end position equals a record's boundary is replaced by that record's full
entity literal, every other character is copied unchanged — and an
annotation spanning several records gets all the substitutions in this
single walk. -/
theorem c4_walk_substitutes_exactly_at_boundaries {cs : List Char}
    {subs : List Sub} {acc pos : Nat} {out : List Char} {s2 : List Sub} {a2 : Nat}
    (hsort : subs.Pairwise (fun a b => a.wrong_end < b.wrong_end))
    (hpos : ∀ s ∈ subs, pos < s.wrong_end)
    (h : walkText cs subs acc pos = some (out, s2, a2)) :
    out = specWalk subs pos cs := by
  induction cs generalizing subs acc pos out s2 a2 with
  | nil =>
    simp only [walkText, Option.some.injEq, Prod.mk.injEq] at h
    rw [← h.1]
    rfl
  | cons c cs ih =>
    cases subs with
    | nil =>
      rw [walkText_nil_subs] at h
      simp only [Option.some.injEq, Prod.mk.injEq] at h
      rw [← h.1, specWalk_nil_subs]
    | cons s rest =>
      have hps := hpos s (List.mem_cons_self _ _)
      have hpair := List.pairwise_cons.mp hsort
      simp only [walkText] at h
      split at h
      · rename_i heq
        split at h
        · rename_i hchar
          split at h
          · exact absurd h (by simp)
          · rename_i t s3 a3 hrec
            simp only [Option.some.injEq, Prod.mk.injEq] at h
            rw [← h.1]
            have hfind : List.find? (fun r => r.wrong_end == pos + 1) (s :: rest) =
                some s := List.find?_cons_of_pos _ (by simp [heq])
            simp only [specWalk, hfind]
            rw [specWalk_skip (Nat.le_of_eq heq)]
            have hout := ih hpair.2
              (fun r hr => by have := hpair.1 r hr; omega) hrec
            rw [hout]
        · exact absurd h (by simp)
      · rename_i hne
        split at h
        · exact absurd h (by simp)
        · rename_i t s3 a3 hrec
          simp only [Option.some.injEq, Prod.mk.injEq] at h
          rw [← h.1]
          have hgt : pos + 1 < s.wrong_end := by omega
          have hfind : List.find? (fun r => r.wrong_end == pos + 1) (s :: rest) =
              none := by
            rw [List.find?_eq_none]
            intro x hx
            rcases List.mem_cons.mp hx with rfl | hx2
            · simp
              omega
            · have := hpair.1 x hx2
              simp
              omega
          simp only [specWalk, hfind, List.singleton_append]
          have hout := ih hsort
            (fun r hr => by
              rcases List.mem_cons.mp hr with rfl | hr2
              · exact hgt
              · have := hpair.1 r hr2
                omega) hrec
          rw [hout]

/-- C4 witness: an annotation spanning both entity occurrences of `part2`
(corrupted text `& &`): the walk substitutes both literals and matches the
positional spec rewrite. -/
theorem c4_witness :
    walkText ['&', ' ', '&'] (mkSubs (scanEntities part2.text.data 0) 0) 0 0 =
      some ("&amp; &amp;".data, [], 8) ∧
    (mkSubs (scanEntities part2.text.data 0) 0).Pairwise
      (fun a b => a.wrong_end < b.wrong_end) ∧
    (∀ s ∈ mkSubs (scanEntities part2.text.data 0) 0, 0 < s.wrong_end) ∧
    "&amp; &amp;".data =
      specWalk (mkSubs (scanEntities part2.text.data 0) 0) 0 ['&', ' ', '&'] :=
  ⟨by decide, by decide, by decide,
    @c4_walk_substitutes_exactly_at_boundaries ['&', ' ', '&']
      (mkSubs (scanEntities part2.text.data 0) 0) 0 0 ("&amp; &amp;".data) [] 8
      (by decide) (by decide) (by decide)⟩

/-- Helper: the mismatch condition over records all pending beyond the
next position is unchanged by stepping one character forward. -/
theorem mismatch_shift {subs : List Sub} {pos : Nat} {c : Char} {cs : List Char}
    (hall : ∀ s ∈ subs, pos + 1 < s.wrong_end) :
    (∃ s ∈ subs, s.wrong_end ≤ pos + (c :: cs).length ∧
        String.mk [(c :: cs).getD (s.wrong_end - pos - 1) ' '] ≠ s.wrong_text) ↔
    (∃ s ∈ subs, s.wrong_end ≤ (pos + 1) + cs.length ∧
        String.mk [cs.getD (s.wrong_end - (pos + 1) - 1) ' '] ≠ s.wrong_text) := by
  constructor
  · rintro ⟨s, hs, h1, h2⟩
    have hgt := hall s hs
    refine ⟨s, hs, by simp at h1; omega, ?_⟩
    have hk : s.wrong_end - pos - 1 = (s.wrong_end - (pos + 1) - 1) + 1 := by omega
    rw [hk, List.getD_cons_succ] at h2
    exact h2
  · rintro ⟨s, hs, h1, h2⟩
    have hgt := hall s hs
    refine ⟨s, hs, by simp; omega, ?_⟩
    have hk : s.wrong_end - pos - 1 = (s.wrong_end - (pos + 1) - 1) + 1 := by omega
    rw [hk, List.getD_cons_succ]
    exact h2

/-- C9. Under the invariants the program maintains (records sorted by
strictly increasing boundary, all boundaries pending), the literal-text
walk hits the assertion (modelled as `none`) iff some pending record's
boundary falls inside the walked text and the character at that boundary
differs from the record's decoded single-character representation; in
particular a successful walk never silently swallowed a mismatch. -/
theorem c9_assertion_iff_decoded_mismatch {cs : List Char} {subs : List Sub}
    {acc pos : Nat}
    (hsort : subs.Pairwise (fun a b => a.wrong_end < b.wrong_end))
    (hpos : ∀ s ∈ subs, pos < s.wrong_end) :
    walkText cs subs acc pos = none ↔
      ∃ s ∈ subs, s.wrong_end ≤ pos + cs.length ∧
        String.mk [cs.getD (s.wrong_end - pos - 1) ' '] ≠ s.wrong_text := by
  induction cs generalizing subs acc pos with
  | nil =>
    constructor
    · intro h
      simp [walkText] at h
    · rintro ⟨s, hs, h1, -⟩
      have := hpos s hs
      simp only [List.length_nil, Nat.add_zero] at h1
      omega
  | cons c cs ih =>
    cases subs with
    | nil =>
      rw [walkText_nil_subs]
      simp
    | cons s rest =>
      have hps := hpos s (List.mem_cons_self _ _)
      have hpair := List.pairwise_cons.mp hsort
      by_cases heq : s.wrong_end = pos + 1
      · by_cases hchar : String.mk [c] = s.wrong_text
        · have hw : walkText (c :: cs) (s :: rest) acc pos =
              (match walkText cs rest (acc + s.adjusted_offset) (pos + 1) with
               | none => none
               | some (t, s3, a3) => some (s.actual_text.data ++ t, s3, a3)) := by
            simp [walkText, heq, hchar]
          rw [hw]
          have hihyp : ∀ r ∈ rest, pos + 1 < r.wrong_end := fun r hr => by
            have := hpair.1 r hr
            omega
          have hih := @ih rest (acc + s.adjusted_offset) (pos + 1) hpair.2 hihyp
          constructor
          · intro h
            have hrec : walkText cs rest (acc + s.adjusted_offset) (pos + 1) = none := by
              cases hr : walkText cs rest (acc + s.adjusted_offset) (pos + 1) with
              | none => rfl
              | some v =>
                obtain ⟨t, s3, a3⟩ := v
                rw [hr] at h
                simp at h
            obtain ⟨r2, hr2, h12, h22⟩ := (mismatch_shift hihyp).mpr (hih.mp hrec)
            exact ⟨r2, List.mem_cons_of_mem _ hr2, h12, h22⟩
          · rintro ⟨r, hrmem, h1, h2⟩
            rcases List.mem_cons.mp hrmem with rfl | hr2
            · exfalso
              have hk : r.wrong_end - pos - 1 = 0 := by omega
              rw [hk, List.getD_cons_zero] at h2
              exact h2 hchar
            · have hrec := hih.mpr ((mismatch_shift hihyp).mp ⟨r, hr2, h1, h2⟩)
              rw [hrec]
        · have hw : walkText (c :: cs) (s :: rest) acc pos = none := by
            simp [walkText, heq, hchar]
          rw [hw]
          constructor
          · intro _
            refine ⟨s, List.mem_cons_self _ _, by simp; omega, ?_⟩
            have hk : s.wrong_end - pos - 1 = 0 := by omega
            rw [hk, List.getD_cons_zero]
            exact hchar
          · intro _
            rfl
      · have hgt : pos + 1 < s.wrong_end := by omega
        have hw : walkText (c :: cs) (s :: rest) acc pos =
            (match walkText cs (s :: rest) acc (pos + 1) with
             | none => none
             | some (t, s3, a3) => some (c :: t, s3, a3)) := by
          simp [walkText, heq]
        rw [hw]
        have hihyp : ∀ r ∈ s :: rest, pos + 1 < r.wrong_end := fun r hr => by
          rcases List.mem_cons.mp hr with rfl | hr2
          · exact hgt
          · have := hpair.1 r hr2
            omega
        have hih := @ih (s :: rest) acc (pos + 1) hsort hihyp
        constructor
        · intro h
          have hrec : walkText cs (s :: rest) acc (pos + 1) = none := by
            cases hr : walkText cs (s :: rest) acc (pos + 1) with
            | none => rfl
            | some v =>
              obtain ⟨t, s3, a3⟩ := v
              rw [hr] at h
              simp at h
          exact (mismatch_shift hihyp).mpr (hih.mp hrec)
        · intro hex
          have hrec := hih.mpr ((mismatch_shift hihyp).mp hex)
          rw [hrec]

/-- C9 witness: a character that differs from the decoded entity character
at a record boundary makes the walk fail, and the mismatch condition holds
at that concrete input. -/
theorem c9_witness :
    walkText ['X'] [subAmp] 0 4 = none ∧
    (∃ s ∈ [subAmp], s.wrong_end ≤ 4 + (['X'] : List Char).length ∧
      String.mk [(['X'] : List Char).getD (s.wrong_end - 4 - 1) ' '] ≠ s.wrong_text) :=
  ⟨(@c9_assertion_iff_decoded_mismatch ['X'] [subAmp] 0 4 (by decide)
      (by decide)).mpr (by decide),
   by decide⟩

end FixHtmlEntities
